import Mathlib

/-!
Verification development for the two-pass Danawa category crawler
(`crawl_stroller.py`, `pattern_learn_final.py`).

The Python string operations the crawler relies on (`strip`, `split`,
`replace`, membership `in`, the two regular expressions
`\s*\([^)]*\)` / `\s+` / `(세|개월).*(부터|이상)`) are modelled by
structurally recursive functions on `List Char`, wrapped back into
`String`, so that every definition is executable and every concrete
instance can be settled by `decide`.
-/

namespace Crawler

/-! ## Character-level string utilities (Python semantics) -/

/-- Whitespace characters recognised by Python's `str.strip` / `\s`
(ASCII portion). -/
def pyIsSpace (c : Char) : Bool :=
  c = ' ' || c = '\t' || c = '\n' || c = '\r' || c = '\x0b' || c = '\x0c'

/-- Strip whitespace from both ends of a character list (`str.strip`). -/
def stripChars (l : List Char) : List Char :=
  ((l.dropWhile pyIsSpace).reverse.dropWhile pyIsSpace).reverse

/-- The string wrapper of `stripChars`. -/
def strStrip (s : String) : String := ⟨stripChars s.data⟩

/-- Does `pat` occur at the head of `l`? -/
def leadMatch : List Char → List Char → Bool
  | [], _ => true
  | _ :: _, [] => false
  | p :: ps, c :: cs => p = c && leadMatch ps cs

/-- Does `pat` occur anywhere in `l` (Python's `pat in s`)? -/
def containsSeg (l pat : List Char) : Bool :=
  match l with
  | [] => pat.isEmpty
  | _ :: t => leadMatch pat l || containsSeg t pat

/-- Python's substring test `pat in s`. -/
def strContains (s pat : String) : Bool := containsSeg s.data pat.data

/-- Python's `s.startswith(pat)`. -/
def strStartsWith (s pat : String) : Bool := leadMatch pat.data s.data

/-- Python's `s.endswith(pat)`. -/
def strEndsWith (s pat : String) : Bool := leadMatch pat.data.reverse s.data.reverse

/-- The prefix of `l` before the first occurrence of `pat`
(`s.split(pat)[0]` for a non-empty `pat`). -/
def takeUntilSeg (pat : List Char) : List Char → List Char
  | [] => []
  | c :: cs => if leadMatch pat (c :: cs) then [] else c :: takeUntilSeg pat cs

/-- Python's `s.split(pat)[0]`. -/
def strTakeBefore (pat s : String) : String := ⟨takeUntilSeg pat.data s.data⟩

/-- Replace every occurrence of `pat` by `rep`, left to right
(Python's `s.replace(pat, rep)` for non-empty `pat`); the fuel is the
length of the scanned list, which bounds the number of scanning steps. -/
def replaceFuel (pat rep : List Char) : Nat → List Char → List Char
  | _, [] => []
  | 0, l => l
  | fuel + 1, c :: cs =>
    if pat ≠ [] && leadMatch pat (c :: cs) then
      rep ++ replaceFuel pat rep fuel ((c :: cs).drop pat.length)
    else
      c :: replaceFuel pat rep fuel cs

/-- Python's `s.replace(pat, rep)`. -/
def strReplace (s pat rep : String) : String :=
  ⟨replaceFuel pat.data rep.data s.data.length s.data⟩

/-- Collapse every whitespace run into a single space
(Python's `re.sub(r"\s+", " ", s)`). -/
def collapseFuel : Nat → List Char → List Char
  | _, [] => []
  | 0, l => l
  | fuel + 1, c :: cs =>
    if pyIsSpace c then ' ' :: collapseFuel fuel (cs.dropWhile pyIsSpace)
    else c :: collapseFuel fuel cs

/-- String wrapper of `collapseFuel`. -/
def strCollapseWs (s : String) : String := ⟨collapseFuel s.data.length s.data⟩

/-- Try to match the regex `\s*\([^)]*\)` at the head of `l`; on success
return the remainder after the match. -/
def parenMatch (l : List Char) : Option (List Char) :=
  match l.dropWhile pyIsSpace with
  | '(' :: rest =>
    match rest.dropWhile (fun c => !(c = ')')) with
    | ')' :: rest2 => some rest2
    | _ => none
  | _ => none

/-- Remove every occurrence of `\s*\([^)]*\)` (Python's
`re.sub(r"\s*\([^)]*\)", "", s)`); fuel bounds the scanning steps. -/
def stripParenFuel : Nat → List Char → List Char
  | _, [] => []
  | 0, l => l
  | fuel + 1, c :: cs =>
    match parenMatch (c :: cs) with
    | some rest => stripParenFuel fuel rest
    | none => c :: stripParenFuel fuel cs

/-- String wrapper of `stripParenFuel`. -/
def strStripParens (s : String) : String := ⟨stripParenFuel s.data.length s.data⟩

/-- Scan for `부터` or `이상` reachable without crossing a newline
(the `.*(부터|이상)` part of the age regex; `.` does not match `\n`). -/
def tailFindB : List Char → Bool
  | [] => false
  | c :: cs =>
    if leadMatch ['부', '터'] (c :: cs) || leadMatch ['이', '상'] (c :: cs) then true
    else if c = '\n' then false
    else tailFindB cs

/-- Python's `re.search(r"(세|개월).*(부터|이상)", s)` as a Boolean. -/
def ageSearchSeg : List Char → Bool
  | [] => false
  | c :: cs =>
    (if c = '세' then tailFindB cs else false)
    || (if leadMatch ['개', '월'] (c :: cs) then tailFindB cs.tail else false)
    || ageSearchSeg cs

/-- String wrapper of `ageSearchSeg`. -/
def ageRegexMatch (s : String) : Bool := ageSearchSeg s.data

/-- Split a character list at every comma (`s.split(",")`). -/
def splitCommaSeg : List Char → List (List Char)
  | [] => [[]]
  | c :: cs =>
    if c = ',' then [] :: splitCommaSeg cs
    else
      match splitCommaSeg cs with
      | [] => [[c]]
      | h :: t => (c :: h) :: t

/-- Python's `s.split(",")`. -/
def splitComma (s : String) : List String := (splitCommaSeg s.data).map (fun l => ⟨l⟩)

/-- Does the string contain a comma? -/
def hasComma (s : String) : Bool := s.data.any (· = ',')

/-- Python's `sep.join(parts)`. -/
def joinWith (sep : String) : List String → String
  | [] => ""
  | [x] => x
  | x :: y :: t => x ++ sep ++ joinWith sep (y :: t)

/-- Lower-case a string (Python's `str.lower`, ASCII portion). -/
def strToLower (s : String) : String := ⟨s.data.map Char.toLower⟩

/-! ## Association-list model of Python dicts (insertion-ordered) -/

/-- Python's `d[k]` / `k in d` lookup on an insertion-ordered dict. -/
def lookupA (m : List (String × String)) (k : String) : Option String :=
  match m with
  | [] => none
  | (k', v') :: t => if k' = k then some v' else lookupA t k

/-- Python's `d[k] = v`: overwrite in place, or append a fresh key. -/
def setA : List (String × String) → String → String → List (String × String)
  | [], k, v => [(k, v)]
  | (k', v') :: t, k, v => if k' = k then (k, v) :: t else (k', v') :: setA t k v

/-- Append `x` unless it is already present (`if x not in l: l.append(x)`). -/
def addIfNew (l : List String) (x : String) : List String :=
  if x ∈ l then l else l ++ [x]

/-! ## Link Collector

`collect_product_links_from_category` (crawl_stroller.py, lines 269-303)
and `collect_links_on_page` (pattern_learn_final.py, lines 99-133).
A listing page is modelled by the function taking a CSS selector to the
list of anchors it matches; an anchor carries its `href` attribute
(`none` when absent) and its visible text. -/

/-- A DOM anchor as read by the collectors. -/
structure Anchor where
  href : Option String
  text : String
deriving DecidableEq, Repr

/-- The five selector strategies of `collect_product_links_from_category`. -/
def selectorsA : List String :=
  ["li.prod_item div.prod_info a.prod_link",
   "li.prod_item .prod_name a",
   "div.prod_info a.prod_link",
   "a[href*='/product/']",
   "a[href*='product/view.html']"]

/-- Anchor texts that mark non-product links. -/
def badWords : List String := ["가격", "비교", "옵션", "구성"]

/-- The per-anchor filters of `collect_product_links_from_category`
(all except the `seen` check): returns the href the anchor contributes,
or `none` when a `continue` fires. -/
def acceptAnchorA (a : Anchor) : Option String :=
  match a.href with
  | none => none
  | some h =>
    if h = "" then none
    else if strStartsWith h "javascript:" then none
    else if !strContains h "danawa" && !strStartsWith h "/" then none
    else if badWords.any (fun w => strContains (strToLower (strStrip a.text)) w) then none
    else some h

/-- Has the requested cap been reached (`max_per_page and len(links) >= max_per_page`,
where `None` and `0` are both falsy)? -/
def capReached (cap : Option Nat) (len : Nat) : Bool :=
  match cap with
  | none => false
  | some n => if n = 0 then false else decide (n ≤ len)

/-- The inner anchor loop of `collect_product_links_from_category`:
walks the anchors of one selector, threading the `seen` set and the
accumulated links; the Boolean is true when the early `return links`
fired on reaching the cap. -/
def scanA (cap : Option Nat) : List Anchor → List String → List String →
    List String × List String × Bool
  | [], seen, links => (seen, links, false)
  | a :: rest, seen, links =>
    match a.href with
    | none => scanA cap rest seen links
    | some h =>
      if h = "" then scanA cap rest seen links
      else if strStartsWith h "javascript:" then scanA cap rest seen links
      else if !strContains h "danawa" && !strStartsWith h "/" then scanA cap rest seen links
      else if h ∈ seen then scanA cap rest seen links
      else if badWords.any (fun w => strContains (strToLower (strStrip a.text)) w) then
        scanA cap rest seen links
      else
        if capReached cap (links ++ [h]).length then (h :: seen, links ++ [h], true)
        else scanA cap rest (h :: seen) (links ++ [h])

/-- The selector loop of `collect_product_links_from_category`: when the
scan of a selector fired the early return (third component), its links
are the result; otherwise the loop continues with the scan's seen set
and links. -/
def collectLoopA (page : String → List Anchor) (cap : Option Nat) :
    List String → List String → List String → List String
  | [], _, links => links
  | sel :: sels, seen, links =>
    if (page sel).length = 0 then collectLoopA page cap sels seen links
    else if (scanA cap (page sel) seen links).2.2 then
      (scanA cap (page sel) seen links).2.1
    else
      collectLoopA page cap sels (scanA cap (page sel) seen links).1
        (scanA cap (page sel) seen links).2.1

/-- Embedding of `collect_product_links_from_category(page, max_per_page)`
(crawl_stroller.py, lines 269-303). -/
def collect_product_links_from_category (page : String → List Anchor)
    (cap : Option Nat) : List String :=
  collectLoopA page cap selectorsA [] []

/-- The three selector strategies of `collect_links_on_page`. -/
def selectorsB : List String :=
  ["li.prod_item div.prod_info a.prod_link",
   "li.prod_item .prod_name a",
   "div.prod_info a.prod_link"]

/-- The in-browser filter of `collect_links_on_page`:
`href && !href.includes('javascript') && href.includes('danawa')`. -/
def acceptAnchorB (href : Option String) : Option String :=
  match href with
  | none => none
  | some h =>
    if h = "" then none
    else if strContains h "javascript" then none
    else if !strContains h "danawa" then none
    else some h

/-- Deduplicating append loop shared with `scanA`'s spec: walks plain
hrefs with the `seen` set, optionally stopping at a cap. -/
def stepFold (cap : Option Nat) : List String → List String → List String →
    List String × List String × Bool
  | [], seen, links => (seen, links, false)
  | h :: t, seen, links =>
    if h ∈ seen then stepFold cap t seen links
    else
      if capReached cap (links ++ [h]).length then (h :: seen, links ++ [h], true)
      else stepFold cap t (h :: seen) (links ++ [h])

/-- The selector loop of `collect_links_on_page`: the filtered hrefs of a
selector are folded through the dedup loop, and the first selector that
leaves `links` non-empty breaks the loop. -/
def collectLoopB (page : String → List (Option String)) :
    List String → List String → List String → List String
  | [], _, links => links
  | sel :: sels, seen, links =>
    if (page sel).length = 0 then collectLoopB page sels seen links
    else if (stepFold none ((page sel).filterMap acceptAnchorB) seen links).2.1 ≠ [] then
      (stepFold none ((page sel).filterMap acceptAnchorB) seen links).2.1
    else
      collectLoopB page sels
        (stepFold none ((page sel).filterMap acceptAnchorB) seen links).1
        (stepFold none ((page sel).filterMap acceptAnchorB) seen links).2.1

/-- Python's `links[:max_per_page]` guarded by truthiness of the cap
(`if max_per_page: return links[:max_per_page]`). -/
def applyCap (cap : Option Nat) (l : List String) : List String :=
  match cap with
  | none => l
  | some n => if n = 0 then l else l.take n

/-- Embedding of `collect_links_on_page(page, max_per_page)`
(pattern_learn_final.py, lines 99-133). -/
def collect_links_on_page (page : String → List (Option String))
    (cap : Option Nat) : List String :=
  applyCap cap (collectLoopB page selectorsB [] [])

/-! ### First-seen dedup, the specification side of the collectors -/

/-- Keep the first occurrence of each element not already in `seen`,
preserving encounter order. -/
def firstSeenAux (seen : List String) : List String → List String
  | [] => []
  | h :: t => if h ∈ seen then firstSeenAux seen t else h :: firstSeenAux (h :: seen) t

/-- The `seen` set left behind by `firstSeenAux`. -/
def seenAfter (seen : List String) : List String → List String
  | [] => seen
  | h :: t => if h ∈ seen then seenAfter seen t else seenAfter (h :: seen) t

/-- All hrefs of the full-crawl collector's scan, in scan order, after
the per-anchor filters: the concatenation over all five selectors. -/
def candidatesA (page : String → List Anchor) : List String :=
  (selectorsA.map (fun sel => (page sel).filterMap acceptAnchorA)).flatten

/-- Per-selector filtered href blocks of the discovery collector. -/
def blocksB (page : String → List (Option String)) : List (List String) :=
  selectorsB.map (fun sel => (page sel).filterMap acceptAnchorB)

/-- The first non-empty block, or `[]` when every block is empty. -/
def firstNonempty : List (List String) → List String
  | [] => []
  | b :: bs => if b = [] then firstNonempty bs else b

/-! ## Pagination Controller

`paginate_category` (crawl_stroller.py, lines 306-337) and `paginate`
(pattern_learn_final.py, lines 136-155). A listing page is modelled by
the observations the two functions make: the count of numbered page
buttons whose onclick mentions `movePage(N)`, whether the page exposes
a `movePage` function, the count of next-group controls, and the button
count visible after clicking the next-group control. The result pairs
the returned Boolean with the trace of page-affecting actions taken. -/

/-- Observable pagination state of a listing page. -/
structure ListingPage where
  numBtnCount : Nat → Nat
  hasMovePageFn : Bool
  nextGroupCount : Nat
  numBtnCountAfterNext : Nat → Nat

/-- Page-affecting actions a pagination attempt can perform. -/
inductive PgAction where
  | clickNumBtn (n : Nat)
  | evalMovePage (n : Nat)
  | clickNextGroup
deriving DecidableEq, Repr

/-- Embedding of `paginate_category(page, current_url, page_num)`
(crawl_stroller.py, lines 306-337). -/
def paginate_category (pg : ListingPage) (n : Nat) : Bool × List PgAction :=
  if 0 < pg.numBtnCount n then (true, [.clickNumBtn n])
  else if pg.hasMovePageFn then (true, [.evalMovePage n])
  else if 0 < pg.nextGroupCount then
    if 0 < pg.numBtnCountAfterNext n then (true, [.clickNextGroup, .clickNumBtn n])
    else (false, [.clickNextGroup])
  else (false, [])

/-- Embedding of `paginate(page, page_num)` (pattern_learn_final.py, lines 136-155). -/
def paginate (pg : ListingPage) (n : Nat) : Bool × List PgAction :=
  if pg.hasMovePageFn then (true, [.evalMovePage n])
  else if 0 < pg.numBtnCount n then (true, [.clickNumBtn n])
  else (false, [])

/-! ## Price-range extraction

`_parse_price` and `extract_price_range` (crawl_stroller.py, lines
53-106). A detail page is modelled by the data the function reads: the
price-span text of each merchant line item under the primary selector
(`none` when the item has no price span), the same under the fallback
selector, and the `value` attributes of the min/max price inputs
(`none` when the input is absent or has no attribute). -/

/-- Observable price data of a detail page. -/
structure PricePage where
  items1 : List (Option String)
  items2 : List (Option String)
  minInput : Option String
  maxInput : Option String
deriving DecidableEq, Repr

/-- Embedding of `_parse_price`: keep the digits, `None` if there are none. -/
def parsePrice (t : String) : Option Nat :=
  let ds := t.data.filter Char.isDigit
  if ds = [] then none
  else some (ds.foldl (fun n c => n * 10 + (c.toNat - '0'.toNat)) 0)

/-- The merchant line items actually iterated: the fallback selector is
used only when the primary one matches nothing. -/
def effectiveItems (pg : PricePage) : List (Option String) :=
  if pg.items1.length = 0 then pg.items2 else pg.items1

/-- Prices parsed from the merchant line items. -/
def primaryPrices (pg : PricePage) : List Nat :=
  (effectiveItems pg).filterMap (fun it => it.bind (fun t => parsePrice (strStrip t)))

/-- Prices parsed from the min/max input fields (the fallback source). -/
def fallbackPrices (pg : PricePage) : List Nat :=
  (pg.minInput.bind parsePrice).toList ++ (pg.maxInput.bind parsePrice).toList

/-- The price list `extract_price_range` accumulates. -/
def crawledPrices (pg : PricePage) : List Nat :=
  if primaryPrices pg = [] then fallbackPrices pg else primaryPrices pg

/-- Embedding of `extract_price_range(page)` (crawl_stroller.py, lines 63-106). -/
def extract_price_range (pg : PricePage) : Option Nat × Option Nat :=
  match crawledPrices pg with
  | [] => (none, none)
  | x :: xs => (some (xs.foldl Nat.min x), some (xs.foldl Nat.max x))

/-! ## Detail-table spec extraction

`extract_specs_from_detail` and its inner closure `add_or_append_spec`
(crawl_stroller.py, lines 180-235). A table row is the list of its
header-cell texts and data-cell texts. -/

/-- The checkmark glyph set. -/
def checkMarksL : List String := ["○", "O", "o", "●"]

/-- Embedding of `add_or_append_spec(key, value)` acting on the specs dict
(crawl_stroller.py, lines 183-198). -/
def addOrAppendSpec (m : List (String × String)) (key value : String) :
    List (String × String) :=
  if key = value then m
  else
    match lookupA m key with
    | none => setA m key value
    | some w =>
      if w = value then m
      else if strContains w value then m
      else if strContains value w then m
      else if strStrip value ∈ (splitComma w).map strStrip then m
      else setA m key (w ++ "," ++ value)

/-- A parsed `<tr>` row: header cells and data cells. -/
structure TableRow where
  ths : List String
  tds : List String
deriving DecidableEq, Repr

/-- The one-header/many-data branch of the row loop
(crawl_stroller.py, lines 206-214). -/
def processRowA (m : List (String × String)) (r : TableRow) :
    List (String × String) :=
  if r.ths.length = 1 && decide (1 < r.tds.length) then
    r.tds.foldl (fun m td =>
      if strStrip td ≠ "" && !(decide (strStrip td ∈ checkMarksL)) then
        addOrAppendSpec m (strStrip (r.ths.headD "")) (strStrip td)
      else m) m
  else m

/-- The value cleanup of the paired-cell branch
(crawl_stroller.py, lines 224-226). -/
def cleanB (td : String) : String :=
  strStripParens (strStrip (strTakeBefore "바로가기"
    (strStrip (strTakeBefore "인증번호 확인" (strStrip td)))))

/-- The paired header/data branch of the row loop
(crawl_stroller.py, lines 216-229). -/
def processRowB (m : List (String × String)) (r : TableRow) :
    List (String × String) :=
  (r.ths.zip r.tds).foldl (fun m p =>
    if strStrip p.1 = "" then m
    else if cleanB p.2 ≠ "" then addOrAppendSpec m (strStrip p.1) (cleanB p.2)
    else m) m

/-- Embedding of `extract_specs_from_detail(page)` (crawl_stroller.py, lines
180-235): fold both branches over every row. -/
def extract_specs_from_detail (rows : List TableRow) : List (String × String) :=
  rows.foldl (fun m r => processRowB (processRowA m r) r) []

/-! ## Attribute Normalizer

The per-entry normalization loop of `crawl_category`
(crawl_stroller.py, lines 504-652), as a state transformer over the
accumulators `spec_parts`, `certification_items`,
`certification_info_items` and `registration_date`. -/

/-- The normalization accumulators. -/
structure NormState where
  spec_parts : List String
  certification_items : List String
  certification_info_items : List String
  registration_date : String
deriving DecidableEq, Repr

/-- The initial accumulator state (crawl_stroller.py, lines 504-507). -/
def initNormState : NormState := ⟨[], [], [], ""⟩

/-- The alias table `key_simplification` (crawl_stroller.py, lines 509-512). -/
def key_simplification : List (String × String) :=
  [("재료 종류", "재료"), ("반찬종류", "종류")]

/-- The static table `base_mapping` (crawl_stroller.py, lines 514-519). -/
def base_mapping : List (String × String) :=
  [("국내산", "원산지"), ("수입산", "원산지"),
   ("국물조림용", "용도"), ("비빔무침용", "용도")]

/-- The age-phrase tokens of lines 533 and 600. -/
def ageTokens : List String := ["세부터", "세 이상", "세이상", "개월 이상", "개월이상"]

/-- The key rewriting of lines 527-538: alias simplification, bracket
stripping, then the age/character overrides keyed on the original key. -/
def rewriteKey (okey : String) : String :=
  let k1 := (lookupA key_simplification okey).getD okey
  let k2 := strReplace (strReplace k1 "[" "") "]" ""
  if ageRegexMatch okey then "대상연령"
  else if ageTokens.any (fun t => strContains okey t) then "대상연령"
  else if strContains okey "연령" then "대상연령"
  else if strContains okey "캐릭터" then "캐릭터"
  else k2

/-- The value-cleanup pipeline of lines 543-551, returning
`(raw_clean_value, clean_value)`. -/
def cleanValuePair (value : String) : String × String :=
  let v1 := strStrip value
  let v2 := strStrip (strTakeBefore "인증번호 확인" v1)
  let v3 := strStripParens v2
  let v4 := strStrip (strReplace v3 "제조사 웹사이트" "")
  let v5 := strStrip (strReplace v4 "웹사이트" "")
  let v6 := strStrip (strTakeBefore "바로가기" v5)
  let v7 := strStrip (strCollapseWs v6)
  (v7, strStrip (strReplace (strReplace (strReplace (strReplace v7 "○" "") "●" "") "O" "") "o" ""))

/-- The toy-item tokens of lines 388 and 596. -/
def toyTokens : List String := ["완구", "놀이", "블럭", "블록", "로봇", "카드", "퍼즐", "인형"]

/-- The keyword/suffix category cascade of lines 584-601 (the branch
taken when the key is absent from the category mapping). -/
def heuristicCategory (k okey : String) : Option String :=
  if strContains k "단계" || decide (k = "프레") then some "단계"
  else if strContains k "분유" then some "품목"
  else if strEndsWith k "개월~" || strEndsWith k "개월" then some "최소연령"
  else if k ∈ ["분말", "액상", "미음", "죽", "진밥", "아기밥"] then some "형태"
  else if k ∈ ["상온", "냉장", "냉동"] then some "보관방식"
  else if k ∈ ["파우치", "플라스틱병"] then some "포장용기"
  else if toyTokens.any (fun t => strContains k t) then some "품목"
  else if strContains okey "캐릭터" || strContains k "캐릭터" then some "캐릭터"
  else if ageRegexMatch okey || ageTokens.any (fun t => strContains okey t)
       || decide (k = "대상연령") then some "대상연령"
  else none

/-- Split a string at every colon (used for `split(":", 1)` via
re-joining the tail). -/
def splitColonSeg : List Char → List (List Char)
  | [] => [[]]
  | c :: cs =>
    if c = ':' then [] :: splitColonSeg cs
    else
      match splitColonSeg cs with
      | [] => [[c]]
      | h :: t => (c :: h) :: t

/-- String wrapper of `splitColonSeg`. -/
def splitColon (s : String) : List String := (splitColonSeg s.data).map (fun l => ⟨l⟩)

/-- The scan-and-replace merge into `spec_parts` of lines 604-616 and
625-637: extend the first entry of the category, else append a new one. -/
def mergePart (parts : List String) (category key : String) : List String :=
  match parts.find? (fun p => strStartsWith p (category ++ ":")) with
  | some p =>
    (parts.erase p) ++
      [category ++ ":" ++ joinWith ":" ((splitColon p).tail) ++ "," ++ key]
  | none => parts ++ [category ++ ":" ++ key]

/-- One iteration of the normalization loop over `specs.items()`
(crawl_stroller.py, lines 523-639), with the overlaid category mapping
as a parameter. -/
def processSpec (mapping : List (String × String)) (st : NormState)
    (key value : String) : NormState :=
  if strStrip value = "" then st
  else if rewriteKey key = value ∨ key = value then st
  else if (cleanValuePair value).2 = "" then st
  else if strContains (rewriteKey key) "등록년월" = true
       ∨ strContains (rewriteKey key) "등록일" = true then
    { st with registration_date := (cleanValuePair value).2 }
  else if (rewriteKey key = "인증정보"
           ∨ (strContains (rewriteKey key) "인증" = true
              ∧ (cleanValuePair value).2 ∈ checkMarksL))
       ∧ (strContains (rewriteKey key) "HACCP" = true
          ∨ rewriteKey key = "HACCP인증") then
    { st with certification_info_items :=
        addIfNew st.certification_info_items (rewriteKey key) }
  else if strContains (rewriteKey key) "인증번호" = true then
    { st with certification_info_items :=
        addIfNew st.certification_info_items (cleanValuePair value).2 }
  else if (cleanValuePair value).1 ∈ checkMarksL then
    if strContains (rewriteKey key) "HACCP" = true ∨ rewriteKey key = "HACCP인증" then
      { st with certification_info_items :=
          addIfNew st.certification_info_items (rewriteKey key) }
    else if strContains (rewriteKey key) "인증" = true then
      { st with certification_items :=
          addIfNew st.certification_items (rewriteKey key) }
    else
      match (lookupA mapping (rewriteKey key)).orElse
          (fun _ => heuristicCategory (rewriteKey key) key) with
      | some c => { st with spec_parts := mergePart st.spec_parts c (rewriteKey key) }
      | none => st
  else if strContains (rewriteKey key) "인증" = true
       ∧ strContains (rewriteKey key) "HACCP" = false then
    { st with certification_items := addIfNew st.certification_items (rewriteKey key) }
  else if rewriteKey key = (cleanValuePair value).2
       ∧ (lookupA mapping (rewriteKey key)).isSome = true then
    { st with spec_parts := mergePart st.spec_parts ((lookupA mapping (rewriteKey key)).getD "") (rewriteKey key) }
  else
    { st with spec_parts :=
        st.spec_parts ++ [rewriteKey key ++ ":" ++ (cleanValuePair value).2] }

/-- The whole normalization loop over the extracted spec entries. -/
def normalizeSpecs (mapping : List (String × String))
    (entries : List (String × String)) : NormState :=
  entries.foldl (fun st p => processSpec mapping st p.1 p.2) initNormState

/-- The final assembly of `spec_parts` (crawl_stroller.py, lines
641-650): certification bucket, certification-info bucket and
registration date are appended after the general entries. -/
def finalParts (st : NormState) : List String :=
  st.spec_parts
  ++ (if st.certification_items ≠ [] then
        ["인증:" ++ joinWith "," st.certification_items] else [])
  ++ (if st.certification_info_items ≠ [] then
        ["인증정보:" ++ joinWith "," st.certification_info_items] else [])
  ++ (if st.registration_date ≠ "" then
        ["등록년월일:" ++ st.registration_date] else [])

/-- Embedding of the join `detail_info` (crawl_stroller.py, line 652). -/
def detailInfo (st : NormState) : String := joinWith "/" (finalParts st)

/-! ## Discovery output

The vocabulary file assembly of `run_async_scan`
(pattern_learn_final.py, lines 222-234): `all_checkmark_keys` is a set
grown by union over per-product key lists, and the persisted object is
`{"count": len(unique_items), "items": sorted(all_checkmark_keys)}`. -/

/-- Insert a string into a `≤`-sorted list, keeping it sorted. -/
def insertSorted (s : String) : List String → List String
  | [] => [s]
  | x :: xs => if s ≤ x then s :: x :: xs else x :: insertSorted s xs

/-- Python's `sorted` by insertion sort (equal to it on sets, the only
use here). -/
def sortStrings : List String → List String
  | [] => []
  | x :: xs => insertSorted x (sortStrings xs)

/-- The persisted discovery object `(count, items)` built from the
per-product checkmark-key lists (pattern_learn_final.py, lines 222-227):
the set union of the results, sorted. -/
def buildMapping (results : List (List String)) : Nat × List String :=
  let items := sortStrings (results.flatten.dedup)
  (items.length, items)

/-! ## Invariant predicates and concrete inputs used by the theorems -/

/-- The comma-separated components of a stored spec value are pairwise
distinct and themselves comma-free. -/
def valueComponentsOk (v : String) : Prop :=
  (splitComma v).Nodup ∧ ∀ c ∈ splitComma v, hasComma c = false

/-- Invariant of a spec-map entry built from comma-free keys and
comma-free non-empty values. -/
def goodEntry (p : String × String) : Prop :=
  hasComma p.1 = false ∧ p.2 ≠ "" ∧ p.1 ≠ p.2 ∧ valueComponentsOk p.2

/-- A listing page on which the first selector strategy matches one
product anchor and the second selector strategy matches another. -/
def cexPageA (sel : String) : List Anchor :=
  if sel = "li.prod_item div.prod_info a.prod_link" then
    [⟨some "https://prod.danawa.com/p1", "상품1"⟩]
  else if sel = "li.prod_item .prod_name a" then
    [⟨some "https://prod.danawa.com/p2", "상품2"⟩]
  else []

/-- A listing page whose first selector matches two product anchors. -/
def capPageA (sel : String) : List Anchor :=
  if sel = "li.prod_item div.prod_info a.prod_link" then
    [⟨some "https://prod.danawa.com/w1", "상품A"⟩,
     ⟨some "https://prod.danawa.com/w2", "상품B"⟩]
  else []

/-- A listing page that both exposes a `movePage` function and shows a
numbered button for page 2. -/
def pgOrderCex : ListingPage :=
  ⟨fun n => if n = 2 then 1 else 0, true, 0, fun _ => 0⟩

/-- A listing page showing only numbered page buttons. -/
def pgBtnOnly : ListingPage := ⟨fun _ => 1, false, 0, fun _ => 0⟩

/-- A detail page with two merchant price items. -/
def pricePageW : PricePage := ⟨[some "1,000원", some "500원"], [], none, none⟩

/-! # Theorems -/

/-! ## String helper lemmas -/

theorem data_append (a b : String) : (a ++ b).data = a.data ++ b.data := by
  cases a; cases b; rfl

theorem comma_data : ("," : String).data = [','] := rfl

theorem leadMatch_append_self : ∀ (pat t : List Char), leadMatch pat (pat ++ t) = true := by
  intro pat
  induction pat with
  | nil => intro t; rfl
  | cons p ps ih => intro t; simp [leadMatch, ih]

theorem containsSeg_append_right : ∀ (a pat : List Char), containsSeg (a ++ pat) pat = true := by
  intro a
  induction a with
  | nil =>
    intro pat
    cases pat with
    | nil => rfl
    | cons c cs =>
      have h := leadMatch_append_self (c :: cs) []
      rw [List.append_nil] at h
      simp [containsSeg, h]
  | cons x xs ih =>
    intro pat
    simp [containsSeg, ih pat]

theorem strContains_append_self (a b : String) : strContains (a ++ b) b = true := by
  unfold strContains
  rw [data_append]
  exact containsSeg_append_right a.data b.data

theorem string_ne_of_length_ne {a b : String} (h : a.data.length ≠ b.data.length) :
    a ≠ b := by
  intro he
  exact h (by rw [he])

theorem append_comma_data (w v : String) :
    (w ++ "," ++ v).data = w.data ++ ',' :: v.data := by
  rw [data_append, data_append, comma_data, List.append_assoc]
  rfl

theorem append_comma_ne (w v : String) : w ++ "," ++ v ≠ v := by
  apply string_ne_of_length_ne
  rw [append_comma_data]
  simp only [List.length_append, List.length_cons]
  omega

theorem append_comma_ne_empty (w v : String) : w ++ "," ++ v ≠ "" := by
  apply string_ne_of_length_ne
  rw [append_comma_data]
  simp

theorem hasComma_append_comma (w v : String) : hasComma (w ++ "," ++ v) = true := by
  unfold hasComma
  rw [append_comma_data, List.any_eq_true]
  exact ⟨',', by simp, by simp⟩

/-! ## splitComma lemmas -/

theorem splitCommaSeg_ne_nil : ∀ l, splitCommaSeg l ≠ [] := by
  intro l
  cases l with
  | nil => simp [splitCommaSeg]
  | cons c cs =>
    simp only [splitCommaSeg]
    split
    · simp
    · split <;> simp

theorem splitCommaSeg_append : ∀ (x y : List Char),
    splitCommaSeg (x ++ ',' :: y) = splitCommaSeg x ++ splitCommaSeg y := by
  intro x y
  induction x with
  | nil => simp [splitCommaSeg]
  | cons c cs ih =>
    by_cases hc : c = ','
    · subst hc; simp [splitCommaSeg, ih]
    · rw [List.cons_append]
      simp only [splitCommaSeg, if_neg hc, ih]
      cases hcs : splitCommaSeg cs with
      | nil => exact absurd hcs (splitCommaSeg_ne_nil cs)
      | cons h t => simp

theorem splitCommaSeg_no_comma : ∀ l, (∀ c ∈ l, c ≠ ',') → splitCommaSeg l = [l] := by
  intro l
  induction l with
  | nil => intro _; rfl
  | cons c cs ih =>
    intro h
    have hc : c ≠ ',' := h c (by simp)
    have hcs := ih (fun x hx => h x (by simp [hx]))
    simp [splitCommaSeg, hc, hcs]

theorem mk_data (s : String) : (⟨s.data⟩ : String) = s := rfl

theorem hasComma_eq_false_iff {s : String} :
    hasComma s = false ↔ ∀ c ∈ s.data, c ≠ ',' := by
  unfold hasComma
  rw [List.any_eq_false]
  constructor
  · intro h c hc he
    have := h c hc
    simp [he] at this
  · intro h c hc
    simp [h c hc]

theorem splitComma_of_no_comma {v : String} (h : hasComma v = false) :
    splitComma v = [v] := by
  unfold splitComma
  rw [splitCommaSeg_no_comma v.data (hasComma_eq_false_iff.mp h)]
  simp [mk_data]

theorem splitComma_append (w v : String) (hv : hasComma v = false) :
    splitComma (w ++ "," ++ v) = splitComma w ++ [v] := by
  unfold splitComma
  rw [append_comma_data, splitCommaSeg_append, List.map_append]
  have h2 : (splitCommaSeg v.data).map (fun l => (⟨l⟩ : String)) = splitComma v := rfl
  rw [h2, splitComma_of_no_comma hv]

/-! ## Membership-preservation of the cleanup operations -/

theorem mem_dropWhile {α} (p : α → Bool) :
    ∀ (l : List α) (c : α), c ∈ l.dropWhile p → c ∈ l := by
  intro l
  induction l with
  | nil => intro c h; simp [List.dropWhile] at h
  | cons x xs ih =>
    intro c hc
    by_cases hx : p x
    · rw [List.dropWhile_cons_of_pos hx] at hc
      exact List.mem_cons_of_mem x (ih c hc)
    · rw [List.dropWhile_cons_of_neg hx] at hc
      exact hc

theorem mem_stripChars : ∀ (l : List Char) (c : Char), c ∈ stripChars l → c ∈ l := by
  intro l c h
  unfold stripChars at h
  rw [List.mem_reverse] at h
  have h2 := mem_dropWhile _ _ _ h
  rw [List.mem_reverse] at h2
  exact mem_dropWhile _ _ _ h2

theorem mem_takeUntilSeg (pat : List Char) :
    ∀ (l : List Char) (c : Char), c ∈ takeUntilSeg pat l → c ∈ l := by
  intro l
  induction l with
  | nil => intro c h; simp [takeUntilSeg] at h
  | cons x xs ih =>
    intro c hc
    unfold takeUntilSeg at hc
    split at hc
    · simp at hc
    · rcases List.mem_cons.mp hc with h1 | h1
      · simp [h1]
      · exact List.mem_cons_of_mem _ (ih c h1)

theorem parenMatch_mem : ∀ {l r : List Char}, parenMatch l = some r →
    ∀ c ∈ r, c ∈ l := by
  intro l r h c hc
  unfold parenMatch at h
  split at h
  next rest heq =>
    split at h
    next r2 heq2 =>
      cases h
      have h1 : c ∈ rest := by
        apply mem_dropWhile _ _ c
        rw [heq2]
        exact List.mem_cons_of_mem _ hc
      have h2 : c ∈ l.dropWhile pyIsSpace := by
        rw [heq]
        exact List.mem_cons_of_mem _ h1
      exact mem_dropWhile _ _ _ h2
    next heq2 => exact Option.noConfusion h
  next heq => exact Option.noConfusion h

theorem mem_stripParenFuel : ∀ (fuel : Nat) (l : List Char) (c : Char),
    c ∈ stripParenFuel fuel l → c ∈ l := by
  intro fuel
  induction fuel with
  | zero =>
    intro l c h
    cases l
    · simp [stripParenFuel] at h
    · simp [stripParenFuel] at h ⊢
      exact h
  | succ n ih =>
    intro l c h
    cases l with
    | nil => simp [stripParenFuel] at h
    | cons x xs =>
      simp only [stripParenFuel] at h
      cases hp : parenMatch (x :: xs) with
      | some rest =>
        rw [hp] at h
        exact parenMatch_mem hp c (ih rest c h)
      | none =>
        rw [hp] at h
        rcases List.mem_cons.mp h with h1 | h1
        · simp [h1]
        · exact List.mem_cons_of_mem _ (ih xs c h1)

theorem hasComma_false_of_sub {s t : String}
    (hsub : ∀ c ∈ s.data, c ∈ t.data) (h : hasComma t = false) :
    hasComma s = false := by
  rw [hasComma_eq_false_iff] at h ⊢
  intro c hc
  exact h c (hsub c hc)

theorem hasComma_strStrip {s : String} (h : hasComma s = false) :
    hasComma (strStrip s) = false :=
  hasComma_false_of_sub (fun _ hc => mem_stripChars _ _ hc) h

theorem hasComma_strTakeBefore {pat s : String} (h : hasComma s = false) :
    hasComma (strTakeBefore pat s) = false :=
  hasComma_false_of_sub (fun _ hc => mem_takeUntilSeg _ _ _ hc) h

theorem hasComma_strStripParens {s : String} (h : hasComma s = false) :
    hasComma (strStripParens s) = false :=
  hasComma_false_of_sub (fun _ hc => mem_stripParenFuel _ _ _ hc) h

theorem hasComma_cleanB {s : String} (h : hasComma s = false) :
    hasComma (cleanB s) = false := by
  unfold cleanB
  exact hasComma_strStripParens (hasComma_strStrip (hasComma_strTakeBefore
    (hasComma_strStrip (hasComma_strTakeBefore (hasComma_strStrip h)))))

/-! ## Dict (association-list) lemmas -/

theorem mem_setA : ∀ (m : List (String × String)) (k v : String)
    (p : String × String), p ∈ setA m k v → p = (k, v) ∨ p ∈ m := by
  intro m
  induction m with
  | nil => intro k v p hp; simpa [setA] using hp
  | cons q t ih =>
    intro k v p hp
    unfold setA at hp
    split at hp
    · rcases List.mem_cons.mp hp with h | h
      · exact Or.inl h
      · exact Or.inr (List.mem_cons_of_mem _ h)
    · rcases List.mem_cons.mp hp with h | h
      · exact Or.inr (by simp [h])
      · rcases ih k v p h with h2 | h2
        · exact Or.inl h2
        · exact Or.inr (List.mem_cons_of_mem _ h2)

theorem lookupA_mem : ∀ {m : List (String × String)} {k w : String},
    lookupA m k = some w → (k, w) ∈ m := by
  intro m
  induction m with
  | nil => intro k w h; exact Option.noConfusion h
  | cons q t ih =>
    intro k w h
    cases q with
    | mk qk qv =>
      unfold lookupA at h
      split at h
      next heq =>
        cases h
        subst heq
        exact List.mem_cons_self _ _
      next heq => exact List.mem_cons_of_mem _ (ih h)

theorem lookupA_setA_self : ∀ (m : List (String × String)) (k v : String),
    lookupA (setA m k v) k = some v := by
  intro m
  induction m with
  | nil => intro k v; simp [setA, lookupA]
  | cons q t ih =>
    intro k v
    unfold setA
    split
    · simp [lookupA]
    · next hne => simp [lookupA, hne, ih]

/-! ## The spec-map merge: invariants of `add_or_append_spec` -/

theorem addOrAppendSpec_weak (m : List (String × String)) (k v : String)
    (hm : ∀ p ∈ m, valueComponentsOk p.2) (hv : hasComma v = false) :
    ∀ p ∈ addOrAppendSpec m k v, valueComponentsOk p.2 := by
  intro p hp
  unfold addOrAppendSpec at hp
  by_cases hkv : k = v
  · rw [if_pos hkv] at hp; exact hm p hp
  · rw [if_neg hkv] at hp
    split at hp
    next hl =>
      rcases mem_setA _ _ _ _ hp with he | hin
      · subst he
        refine ⟨?_, ?_⟩
        · rw [splitComma_of_no_comma hv]; simp
        · rw [splitComma_of_no_comma hv]; intro c hc; rw [List.mem_singleton] at hc
          subst hc; exact hv
      · exact hm p hin
    next w hl =>
      split_ifs at hp with h1 h2 h3 h4
      · exact hm p hp
      · exact hm p hp
      · exact hm p hp
      · exact hm p hp
      · rcases mem_setA _ _ _ _ hp with he | hin
        · subst he
          have hw : valueComponentsOk w := hm (k, w) (lookupA_mem hl)
          obtain ⟨hnd, hcf⟩ := hw
          have hsplit := splitComma_append w v hv
          constructor
          · rw [hsplit, List.nodup_append]
            refine ⟨hnd, List.nodup_singleton v, ?_⟩
            intro x hx hx2
            rw [List.mem_singleton] at hx2
            subst hx2
            exact h4 (List.mem_map_of_mem strStrip hx)
          · rw [hsplit]
            intro c hc
            rcases List.mem_append.mp hc with h | h
            · exact hcf c h
            · rw [List.mem_singleton] at h; subst h; exact hv
        · exact hm p hin

theorem addOrAppendSpec_good (m : List (String × String)) (k v : String)
    (hm : ∀ p ∈ m, goodEntry p) (hk : hasComma k = false)
    (hv : hasComma v = false) (hne : v ≠ "") :
    ∀ p ∈ addOrAppendSpec m k v, goodEntry p := by
  intro p hp
  unfold addOrAppendSpec at hp
  by_cases hkv : k = v
  · rw [if_pos hkv] at hp; exact hm p hp
  · rw [if_neg hkv] at hp
    split at hp
    next hl =>
      rcases mem_setA _ _ _ _ hp with he | hin
      · subst he
        refine ⟨hk, hne, hkv, ?_, ?_⟩
        · rw [splitComma_of_no_comma hv]; simp
        · rw [splitComma_of_no_comma hv]; intro c hc; rw [List.mem_singleton] at hc
          subst hc; exact hv
      · exact hm p hin
    next w hl =>
      split_ifs at hp with h1 h2 h3 h4
      · exact hm p hp
      · exact hm p hp
      · exact hm p hp
      · exact hm p hp
      · rcases mem_setA _ _ _ _ hp with he | hin
        · subst he
          have hw : goodEntry (k, w) := hm (k, w) (lookupA_mem hl)
          obtain ⟨-, -, -, hnd, hcf⟩ := hw
          have hsplit := splitComma_append w v hv
          refine ⟨hk, append_comma_ne_empty w v, ?_, ?_, ?_⟩
          · intro he2
            simp only at he2
            rw [he2, hasComma_append_comma] at hk
            exact Bool.noConfusion hk
          · rw [hsplit, List.nodup_append]
            refine ⟨hnd, List.nodup_singleton v, ?_⟩
            intro x hx hx2
            rw [List.mem_singleton] at hx2
            subst hx2
            exact h4 (List.mem_map_of_mem strStrip hx)
          · rw [hsplit]
            intro c hc
            rcases List.mem_append.mp hc with h | h
            · exact hcf c h
            · rw [List.mem_singleton] at h; subst h; exact hv
        · exact hm p hin

theorem fold_add_weak : ∀ (l : List (String × String))
    (m : List (String × String)),
    (∀ p ∈ m, valueComponentsOk p.2) → (∀ q ∈ l, hasComma q.2 = false) →
    ∀ p ∈ l.foldl (fun m q => addOrAppendSpec m q.1 q.2) m, valueComponentsOk p.2 := by
  intro l
  induction l with
  | nil => intro m hm _ p hp; exact hm p hp
  | cons q t ih =>
    intro m hm hl p hp
    rw [List.foldl_cons] at hp
    exact ih _ (addOrAppendSpec_weak m q.1 q.2 hm (hl q (by simp)))
      (fun r hr => hl r (by simp [hr])) p hp

theorem addOrAppendSpec_twice (m : List (String × String)) (k v : String) :
    addOrAppendSpec (addOrAppendSpec m k v) k v = addOrAppendSpec m k v := by
  by_cases hkv : k = v
  · simp [addOrAppendSpec, hkv]
  · cases hl : lookupA m k with
    | none =>
      have h1 : addOrAppendSpec m k v = setA m k v := by
        unfold addOrAppendSpec; rw [if_neg hkv, hl]
      rw [h1]
      unfold addOrAppendSpec
      rw [if_neg hkv, lookupA_setA_self]
      simp
    | some w =>
      by_cases hwv : w = v
      · have h1 : addOrAppendSpec m k v = m := by
          unfold addOrAppendSpec; rw [if_neg hkv, hl]; simp [hwv]
        rw [h1]; exact h1
      · by_cases hc1 : strContains w v = true
        · have h1 : addOrAppendSpec m k v = m := by
            unfold addOrAppendSpec; rw [if_neg hkv, hl]; simp [hwv, hc1]
          rw [h1]; exact h1
        · by_cases hc2 : strContains v w = true
          · have h1 : addOrAppendSpec m k v = m := by
              unfold addOrAppendSpec; rw [if_neg hkv, hl]; simp [hwv, hc1, hc2]
            rw [h1]; exact h1
          · by_cases hc3 : strStrip v ∈ (splitComma w).map strStrip
            · have h1 : addOrAppendSpec m k v = m := by
                unfold addOrAppendSpec; rw [if_neg hkv, hl]; simp [hwv, hc1, hc2, hc3]
              rw [h1]; exact h1
            · have h1 : addOrAppendSpec m k v = setA m k (w ++ "," ++ v) := by
                unfold addOrAppendSpec; rw [if_neg hkv, hl]; simp [hwv, hc1, hc2, hc3]
              rw [h1]
              unfold addOrAppendSpec
              rw [if_neg hkv, lookupA_setA_self]
              have hne : ¬ (w ++ "," ++ v = v) := append_comma_ne w v
              have hcont : strContains (w ++ "," ++ v) v = true :=
                strContains_append_self (w ++ ",") v
              simp [hne, hcont]

/-! ## Row-level invariant preservation for `extract_specs_from_detail` -/

theorem foldTds_good (pk : String) (hpk : hasComma pk = false) :
    ∀ (tds : List String) (m : List (String × String)),
    (∀ p ∈ m, goodEntry p) → (∀ t ∈ tds, hasComma t = false) →
    ∀ p ∈ tds.foldl (fun m td =>
        if strStrip td ≠ "" && !(decide (strStrip td ∈ checkMarksL)) then
          addOrAppendSpec m pk (strStrip td)
        else m) m, goodEntry p := by
  intro tds
  induction tds with
  | nil => intro m hm _ p hp; exact hm p hp
  | cons td t ih =>
    intro m hm hl p hp
    rw [List.foldl_cons] at hp
    refine ih _ ?_ (fun x hx => hl x (List.mem_cons_of_mem _ hx)) p hp
    by_cases hg : (strStrip td ≠ "" && !(decide (strStrip td ∈ checkMarksL))) = true
    · rw [if_pos hg]
      have hne : strStrip td ≠ "" :=
        of_decide_eq_true ((Bool.and_eq_true _ _).mp hg).1
      exact addOrAppendSpec_good m pk (strStrip td) hm hpk
        (hasComma_strStrip (hl td (List.mem_cons_self _ _))) hne
    · rw [if_neg hg]; exact hm

theorem foldZip_good :
    ∀ (ps : List (String × String)) (m : List (String × String)),
    (∀ p ∈ m, goodEntry p) →
    (∀ q ∈ ps, hasComma q.1 = false ∧ hasComma q.2 = false) →
    ∀ p ∈ ps.foldl (fun m q =>
        if strStrip q.1 = "" then m
        else if cleanB q.2 ≠ "" then addOrAppendSpec m (strStrip q.1) (cleanB q.2)
        else m) m, goodEntry p := by
  intro ps
  induction ps with
  | nil => intro m hm _ p hp; exact hm p hp
  | cons q t ih =>
    intro m hm hl p hp
    rw [List.foldl_cons] at hp
    refine ih _ ?_ (fun x hx => hl x (List.mem_cons_of_mem _ hx)) p hp
    by_cases hg1 : strStrip q.1 = ""
    · rw [if_pos hg1]; exact hm
    · rw [if_neg hg1]
      by_cases hg2 : cleanB q.2 ≠ ""
      · rw [if_pos hg2]
        exact addOrAppendSpec_good m (strStrip q.1) (cleanB q.2) hm
          (hasComma_strStrip (hl q (List.mem_cons_self _ _)).1)
          (hasComma_cleanB (hl q (List.mem_cons_self _ _)).2) hg2
      · rw [if_neg hg2]; exact hm

theorem processRowA_good (m : List (String × String)) (r : TableRow)
    (hm : ∀ p ∈ m, goodEntry p)
    (hth : ∀ t ∈ r.ths, hasComma t = false)
    (htd : ∀ t ∈ r.tds, hasComma t = false) :
    ∀ p ∈ processRowA m r, goodEntry p := by
  intro p hp
  unfold processRowA at hp
  split at hp
  · have hpk : hasComma (strStrip (r.ths.headD "")) = false := by
      apply hasComma_strStrip
      cases hh : r.ths with
      | nil => decide
      | cons a t =>
        simp only [List.headD_cons]
        exact hth a (by rw [hh]; exact List.mem_cons_self a t)
    exact foldTds_good _ hpk r.tds m hm htd p hp
  · exact hm p hp

theorem processRowB_good (m : List (String × String)) (r : TableRow)
    (hm : ∀ p ∈ m, goodEntry p)
    (hth : ∀ t ∈ r.ths, hasComma t = false)
    (htd : ∀ t ∈ r.tds, hasComma t = false) :
    ∀ p ∈ processRowB m r, goodEntry p := by
  intro p hp
  unfold processRowB at hp
  refine foldZip_good _ m hm ?_ p hp
  intro q hq
  have h := List.of_mem_zip hq
  exact ⟨hth q.1 h.1, htd q.2 h.2⟩

theorem extract_specs_good : ∀ (rows : List TableRow),
    (∀ r ∈ rows, (∀ t ∈ r.ths, hasComma t = false) ∧ (∀ t ∈ r.tds, hasComma t = false)) →
    ∀ p ∈ extract_specs_from_detail rows, goodEntry p := by
  suffices h : ∀ (rows : List TableRow) (m : List (String × String)),
      (∀ p ∈ m, goodEntry p) →
      (∀ r ∈ rows, (∀ t ∈ r.ths, hasComma t = false) ∧ (∀ t ∈ r.tds, hasComma t = false)) →
      ∀ p ∈ rows.foldl (fun m r => processRowB (processRowA m r) r) m, goodEntry p by
    intro rows hrows
    exact h rows [] (by simp) hrows
  intro rows
  induction rows with
  | nil => intro m hm _ p hp; exact hm p hp
  | cons r t ih =>
    intro m hm hrows p hp
    rw [List.foldl_cons] at hp
    refine ih _ ?_ (fun x hx => hrows x (List.mem_cons_of_mem _ hx)) p hp
    have hr := hrows r (List.mem_cons_self _ _)
    exact processRowB_good _ _ (processRowA_good _ _ hm hr.1 hr.2) hr.1 hr.2

/-! ## Claim theorems: C6, C10 (spec-map merge), C3, C4, C9 (normalizer) -/

/-- C6 (corrected): the amended claim. The spec-merge operation is
idempotent (adding the same (key, value) pair a second time leaves the
map unchanged), adding a value that is a substring of the stored value
or vice versa is a no-op, and — provided every added value is
comma-free — no duplicate value ever appears within a key's
comma-joined list. (As originally stated the duplicate-freedom fails
for comma-containing values; see the counterexample.) -/
theorem C6_merge_idempotent :
    (∀ (m : List (String × String)) (k v : String),
      addOrAppendSpec (addOrAppendSpec m k v) k v = addOrAppendSpec m k v)
  ∧ (∀ (m : List (String × String)) (k v w : String),
      lookupA m k = some w → (strContains w v = true ∨ strContains v w = true) →
      addOrAppendSpec m k v = m)
  ∧ (∀ l : List (String × String), (∀ q ∈ l, hasComma q.2 = false) →
      ∀ p ∈ l.foldl (fun m q => addOrAppendSpec m q.1 q.2) [],
        (splitComma p.2).Nodup) := by
  refine ⟨addOrAppendSpec_twice, ?_, ?_⟩
  · intro m k v w hl hor
    by_cases hkv : k = v
    · unfold addOrAppendSpec; rw [if_pos hkv]
    · unfold addOrAppendSpec; rw [if_neg hkv, hl]
      rcases hor with h | h
      · by_cases hwv : w = v
        · simp [hwv]
        · simp [hwv, h]
      · by_cases hwv : w = v
        · simp [hwv]
        · by_cases h1 : strContains w v = true
          · simp [hwv, h1]
          · simp [hwv, h1, h]
  · intro l hl p hp
    exact (fold_add_weak l [] (by simp) hl p hp).1

/-- C6 counterexample: two comma-containing values under the same key
produce the stored value "a,b,b,c", whose comma-joined list contains
the duplicate "b" — refuting the claim's duplicate-freedom as stated. -/
theorem C6_counterexample :
    addOrAppendSpec (addOrAppendSpec [] "x" "a,b") "x" "b,c" = [("x", "a,b,b,c")]
  ∧ ¬ (splitComma "a,b,b,c").Nodup := by decide

/-- C6 witness: the substring no-op conjunct applied at a concrete map. -/
theorem C6_witness : addOrAppendSpec [("k", "abc")] "k" "bc" = [("k", "abc")] :=
  C6_merge_idempotent.2.1 [("k", "abc")] "k" "bc" "abc" (by decide) (by decide)

/-- C10 (corrected): the amended claim. For tables whose cell texts are
comma-free, the spec map returned by detail extraction satisfies: every
stored value is non-empty, no key equals its own stored value, and the
comma-separated values stored under a key are pairwise distinct. (As
originally stated — without the comma-free proviso — the last two parts
fail; see the counterexample.) -/
theorem C10_spec_map_invariant : ∀ (rows : List TableRow),
    (∀ r ∈ rows, (∀ t ∈ r.ths, hasComma t = false) ∧ (∀ t ∈ r.tds, hasComma t = false)) →
    ∀ p ∈ extract_specs_from_detail rows,
      p.2 ≠ "" ∧ p.1 ≠ p.2 ∧ (splitComma p.2).Nodup := by
  intro rows hrows p hp
  have h := extract_specs_good rows hrows p hp
  exact ⟨h.2.1, h.2.2.1, h.2.2.2.1⟩

/-- C10 counterexample: two rows with comma-containing data cells make
`extract_specs_from_detail` store "c,d,d,e", whose comma-separated
values are not pairwise distinct. -/
theorem C10_counterexample :
    extract_specs_from_detail [⟨["y"], ["c,d"]⟩, ⟨["y"], ["d,e"]⟩] = [("y", "c,d,d,e")]
  ∧ ¬ (splitComma "c,d,d,e").Nodup := by decide

/-- C10 witness: the invariant evaluated on a concrete one-row table. -/
theorem C10_witness :
    ("원산지" : String) ≠ "국내산" ∧ (splitComma "국내산").Nodup := by
  have h := C10_spec_map_invariant [⟨["원산지"], ["국내산"]⟩] (by decide)
      ("원산지", "국내산") (by decide)
  exact ⟨h.2.1, h.2.2⟩

/-- C3 (corrected): the amended claim. A raw spec entry whose rewritten
key still contains a registration-date marker, and which survives the
emptiness and key-equals-value guards, is routed to the single
registration-date field and contributes nothing else. (As originally
stated the claim fails for keys that also trigger the age/character
rewrites; see the counterexample.) -/
theorem C3_registration_routing : ∀ (m : List (String × String)) (st : NormState)
    (key value : String),
    strStrip value ≠ "" →
    ¬ (rewriteKey key = value ∨ key = value) →
    (cleanValuePair value).2 ≠ "" →
    (strContains (rewriteKey key) "등록년월" = true
      ∨ strContains (rewriteKey key) "등록일" = true) →
    processSpec m st key value = { st with registration_date := (cleanValuePair value).2 } := by
  intro m st key value h1 h2 h3 h4
  unfold processSpec
  rw [if_neg h1, if_neg h2, if_neg h3, if_pos h4]

/-- C3 counterexample: the key "연령등록일" contains the
registration-date marker "등록일", yet the age rewrite fires first, the
entry is emitted as the generic attribute "대상연령:2024.01", and the
registration-date field stays empty. -/
theorem C3_counterexample :
    strContains "연령등록일" "등록일" = true
  ∧ processSpec [] initNormState "연령등록일" "2024.01"
      = { initNormState with spec_parts := ["대상연령:2024.01"] }
  ∧ (processSpec [] initNormState "연령등록일" "2024.01").registration_date = "" := by
  decide

/-- C3 witness: a plain registration-date key is routed to the
registration-date field. -/
theorem C3_witness :
    processSpec [] initNormState "등록년월" "2024.01"
      = { initNormState with registration_date := (cleanValuePair "2024.01").2 } :=
  C3_registration_routing [] initNormState "등록년월" "2024.01"
    (by decide) (by decide) (by decide) (by decide)

/-- C4 (code bug): a certification-like key paired with a checkmark
glyph is dropped entirely — the glyph is stripped, the empty-value
guard fires before the checkmark-routing branch (which is unreachable),
and the certification bucket stays empty, contradicting the documented
behaviour. -/
theorem C4_checkmark_cert_dropped :
    processSpec [] initNormState "KC인증" "○" = initNormState
  ∧ normalizeSpecs [] [("KC인증", "○")] = initNormState
  ∧ (normalizeSpecs [] [("KC인증", "○")]).certification_items = []
  ∧ detailInfo (normalizeSpecs [] [("KC인증", "○")]) = "" := by decide

/-- C9 (confirmed): a raw spec entry whose value is a checkmark glyph
and whose key carries no certification or HACCP marker and resolves to
no category contributes nothing to the normalization state. -/
theorem C9_unmapped_checkmark_dropped : ∀ (m : List (String × String))
    (st : NormState) (key value : String),
    value ∈ checkMarksL →
    strContains (rewriteKey key) "인증" = false →
    strContains (rewriteKey key) "HACCP" = false →
    lookupA m (rewriteKey key) = none →
    heuristicCategory (rewriteKey key) key = none →
    processSpec m st key value = st := by
  intro m st key value hv _h1 _h2 _h3 _h4
  have key_case : ∀ g : String, strStrip g ≠ "" → (cleanValuePair g).2 = "" →
      processSpec m st key g = st := by
    intro g hg1 hg2
    unfold processSpec
    by_cases h5 : rewriteKey key = g ∨ key = g
    · rw [if_neg hg1, if_pos h5]
    · rw [if_neg hg1, if_neg h5, if_pos hg2]
  rcases (show value = "○" ∨ value = "O" ∨ value = "o" ∨ value = "●" by
    simpa [checkMarksL] using hv) with h | h | h | h <;>
    subst h <;> exact key_case _ (by decide) (by decide)

/-- C9 witness: a concrete unmapped checkmark entry is dropped. -/
theorem C9_witness : processSpec [] initNormState "테스트" "○" = initNormState :=
  C9_unmapped_checkmark_dropped [] initNormState "테스트" "○"
    (by decide) (by decide) (by decide) (by decide) (by decide)

/-! ## Fold-min/max lemmas for the price range -/

theorem foldl_min_le_init : ∀ (xs : List Nat) (x : Nat), xs.foldl Nat.min x ≤ x := by
  intro xs
  induction xs with
  | nil => intro x; simp
  | cons y ys ih =>
    intro x
    rw [List.foldl_cons]
    exact le_trans (ih (Nat.min x y)) (Nat.min_le_left x y)

theorem foldl_min_le_mem : ∀ (xs : List Nat) (x y : Nat),
    y ∈ xs → xs.foldl Nat.min x ≤ y := by
  intro xs
  induction xs with
  | nil => intro x y h; simp at h
  | cons z zs ih =>
    intro x y h
    rw [List.foldl_cons]
    rcases List.mem_cons.mp h with h1 | h1
    · subst h1; exact le_trans (foldl_min_le_init zs _) (Nat.min_le_right x y)
    · exact ih _ y h1

theorem foldl_min_mem : ∀ (xs : List Nat) (x : Nat),
    xs.foldl Nat.min x = x ∨ xs.foldl Nat.min x ∈ xs := by
  intro xs
  induction xs with
  | nil => intro x; exact Or.inl rfl
  | cons z zs ih =>
    intro x
    rw [List.foldl_cons]
    rcases ih (Nat.min x z) with h | h
    · rw [h]
      rcases Nat.le_total x z with h2 | h2
      · exact Or.inl (Nat.le_antisymm (Nat.min_le_left x z)
          (Nat.le_min.mpr ⟨Nat.le_refl x, h2⟩))
      · refine Or.inr ?_
        have h3 : Nat.min x z = z :=
          Nat.le_antisymm (Nat.min_le_right x z) (Nat.le_min.mpr ⟨h2, Nat.le_refl z⟩)
        rw [h3]
        exact List.mem_cons_self z zs
    · exact Or.inr (List.mem_cons_of_mem _ h)

theorem foldl_max_init_le : ∀ (xs : List Nat) (x : Nat), x ≤ xs.foldl Nat.max x := by
  intro xs
  induction xs with
  | nil => intro x; simp
  | cons y ys ih =>
    intro x
    rw [List.foldl_cons]
    exact le_trans (Nat.le_max_left x y) (ih (Nat.max x y))

theorem foldl_max_mem_le : ∀ (xs : List Nat) (x y : Nat),
    y ∈ xs → y ≤ xs.foldl Nat.max x := by
  intro xs
  induction xs with
  | nil => intro x y h; simp at h
  | cons z zs ih =>
    intro x y h
    rw [List.foldl_cons]
    rcases List.mem_cons.mp h with h1 | h1
    · subst h1; exact le_trans (Nat.le_max_right x y) (foldl_max_init_le zs _)
    · exact ih _ y h1

theorem foldl_max_mem : ∀ (xs : List Nat) (x : Nat),
    xs.foldl Nat.max x = x ∨ xs.foldl Nat.max x ∈ xs := by
  intro xs
  induction xs with
  | nil => intro x; exact Or.inl rfl
  | cons z zs ih =>
    intro x
    rw [List.foldl_cons]
    rcases ih (Nat.max x z) with h | h
    · rw [h]
      rcases Nat.le_total x z with h2 | h2
      · refine Or.inr ?_
        have h3 : Nat.max x z = z :=
          Nat.le_antisymm (Nat.max_le.mpr ⟨h2, Nat.le_refl z⟩) (Nat.le_max_right x z)
        rw [h3]
        exact List.mem_cons_self z zs
      · exact Or.inl (Nat.le_antisymm (Nat.max_le.mpr ⟨Nat.le_refl x, h2⟩)
          (Nat.le_max_left x z))
    · exact Or.inr (List.mem_cons_of_mem _ h)

/-- C5 (confirmed): price-range extraction returns (none, none) exactly
when no price value is parseable, and otherwise the numeric extremes
across all parsed values; consequently the minimum is at most the
maximum. -/
theorem C5_price_range : ∀ pg : PricePage,
    ((extract_price_range pg).1 = none ↔ crawledPrices pg = [])
  ∧ ((extract_price_range pg).2 = none ↔ crawledPrices pg = [])
  ∧ (∀ a b : Nat, extract_price_range pg = (some a, some b) →
      a ∈ crawledPrices pg ∧ b ∈ crawledPrices pg ∧
      (∀ x ∈ crawledPrices pg, a ≤ x ∧ x ≤ b) ∧ a ≤ b) := by
  intro pg
  unfold extract_price_range
  cases hc : crawledPrices pg with
  | nil => simp
  | cons x xs =>
    refine ⟨by simp, by simp, ?_⟩
    intro a b hab
    rw [Prod.mk.injEq, Option.some.injEq, Option.some.injEq] at hab
    obtain ⟨ha, hb⟩ := hab
    subst ha
    subst hb
    refine ⟨?_, ?_, ?_, ?_⟩
    · rcases foldl_min_mem xs x with h | h
      · rw [h]; exact List.mem_cons_self x xs
      · exact List.mem_cons_of_mem _ h
    · rcases foldl_max_mem xs x with h | h
      · rw [h]; exact List.mem_cons_self x xs
      · exact List.mem_cons_of_mem _ h
    · intro y hy
      rcases List.mem_cons.mp hy with h | h
      · subst h
        exact ⟨foldl_min_le_init xs y, foldl_max_init_le xs y⟩
      · exact ⟨foldl_min_le_mem xs x y h, foldl_max_mem_le xs x y h⟩
    · exact le_trans (foldl_min_le_init xs x) (foldl_max_init_le xs x)

/-- C5 witness: the extremes on a concrete detail page with prices
1000 and 500. -/
theorem C5_witness :
    (500 : Nat) ∈ crawledPrices pricePageW ∧ (1000 : Nat) ∈ crawledPrices pricePageW
  ∧ (∀ x ∈ crawledPrices pricePageW, 500 ≤ x ∧ x ≤ 1000) ∧ (500 : Nat) ≤ 1000 :=
  (C5_price_range pricePageW).2.2 500 1000 (by decide)

/-! ## Pagination claim -/

/-- C2 (corrected): the amended claim. `paginate_category` attempts, in
order: (1) clicking a numbered page button whose click handler
references the target page, (2) invoking the in-page `movePage`
function if the page exposes one, (3) clicking the next-group control
and then retrying the numbered button once — the button is consulted
before the direct function, unlike the claimed order. The discovery
pass's `paginate` attempts only the direct function and then the
button, with no next-group fallback. -/
theorem C2_pagination_order : ∀ (pg : ListingPage) (n : Nat),
    (0 < pg.numBtnCount n → paginate_category pg n = (true, [.clickNumBtn n]))
  ∧ (pg.numBtnCount n = 0 → pg.hasMovePageFn = true →
      paginate_category pg n = (true, [.evalMovePage n]))
  ∧ (pg.numBtnCount n = 0 → pg.hasMovePageFn = false → 0 < pg.nextGroupCount →
      0 < pg.numBtnCountAfterNext n →
      paginate_category pg n = (true, [.clickNextGroup, .clickNumBtn n]))
  ∧ (pg.numBtnCount n = 0 → pg.hasMovePageFn = false → 0 < pg.nextGroupCount →
      pg.numBtnCountAfterNext n = 0 →
      paginate_category pg n = (false, [.clickNextGroup]))
  ∧ (pg.numBtnCount n = 0 → pg.hasMovePageFn = false → pg.nextGroupCount = 0 →
      paginate_category pg n = (false, []))
  ∧ (pg.hasMovePageFn = true → paginate pg n = (true, [.evalMovePage n]))
  ∧ (pg.hasMovePageFn = false → 0 < pg.numBtnCount n →
      paginate pg n = (true, [.clickNumBtn n]))
  ∧ (pg.hasMovePageFn = false → pg.numBtnCount n = 0 →
      paginate pg n = (false, [])) := by
  intro pg n
  refine ⟨?_, ?_, ?_, ?_, ?_, ?_, ?_, ?_⟩ <;>
    intros <;> simp_all [paginate_category, paginate]

/-- C2 counterexample: a page that exposes the direct page-change
function and also shows the numbered button; the controller clicks the
button, so the direct function is not the first strategy attempted,
refuting the claimed order. -/
theorem C2_counterexample :
    pgOrderCex.hasMovePageFn = true
  ∧ paginate_category pgOrderCex 2 = (true, [.clickNumBtn 2]) := by decide

/-- C2 witness: the button-first conjunct on a concrete page. -/
theorem C2_witness :
    paginate_category pgBtnOnly 3 = (true, [PgAction.clickNumBtn 3]) :=
  (C2_pagination_order pgBtnOnly 3).1 (by decide)

/-! ## Discovery output claim -/

theorem insertSorted_perm (s : String) : ∀ l : List String,
    (insertSorted s l).Perm (s :: l) := by
  intro l
  induction l with
  | nil => simp [insertSorted]
  | cons x xs ih =>
    unfold insertSorted
    split
    · exact List.Perm.refl _
    · exact (List.Perm.cons x ih).trans (List.Perm.swap s x xs)

theorem sortStrings_perm : ∀ l : List String, (sortStrings l).Perm l := by
  intro l
  induction l with
  | nil => exact List.Perm.refl _
  | cons x xs ih =>
    unfold sortStrings
    exact (insertSorted_perm x (sortStrings xs)).trans (List.Perm.cons x ih)

theorem insertSorted_sorted (s : String) : ∀ l : List String,
    l.Sorted (· ≤ ·) → (insertSorted s l).Sorted (· ≤ ·) := by
  intro l
  induction l with
  | nil => intro _; simp [insertSorted]
  | cons x xs ih =>
    intro hs
    unfold insertSorted
    split
    next hle =>
      rw [List.sorted_cons]
      refine ⟨?_, hs⟩
      intro b hb
      rcases List.mem_cons.mp hb with h | h
      · subst h; exact hle
      · exact le_trans hle ((List.sorted_cons.mp hs).1 b h)
    next hle =>
      have hxs : x ≤ s := le_of_not_le hle
      rw [List.sorted_cons] at hs ⊢
      refine ⟨?_, ih hs.2⟩
      intro b hb
      have hb2 := (insertSorted_perm s xs).mem_iff.mp hb
      rcases List.mem_cons.mp hb2 with h | h
      · subst h; exact hxs
      · exact hs.1 b h

theorem sortStrings_sorted : ∀ l : List String, (sortStrings l).Sorted (· ≤ ·) := by
  intro l
  induction l with
  | nil => simp [sortStrings]
  | cons x xs ih =>
    unfold sortStrings
    exact insertSorted_sorted x (sortStrings xs) ih

/-! ## Link Collector characterization -/

theorem take_all_of_le {α : Type} : ∀ (l : List α) (n : Nat), l.length ≤ n →
    l.take n = l := by
  intro l
  induction l with
  | nil => intro n _; simp
  | cons x xs ih =>
    intro n hn
    cases n with
    | zero => simp at hn
    | succ m =>
      rw [List.take_succ_cons, ih m (by simpa using hn)]

theorem take_append_of_le {α : Type} : ∀ (l m : List α) (n : Nat), n ≤ l.length →
    (l ++ m).take n = l.take n := by
  intro l
  induction l with
  | nil =>
    intro m n hn
    have h0 : n = 0 := Nat.le_zero.mp (by simpa using hn)
    subst h0
    simp
  | cons x xs ih =>
    intro m n hn
    cases n with
    | zero => simp
    | succ k =>
      rw [List.cons_append, List.take_succ_cons, List.take_succ_cons,
        ih m k (by simpa using hn)]

theorem take_len_succ_append {α : Type} : ∀ (l : List α) (x : α) (t : List α),
    (l ++ x :: t).take (l.length + 1) = l ++ [x] := by
  intro l x t
  induction l with
  | nil => simp
  | cons y ys ih => simp [List.take_succ_cons, ih]

theorem scanA_eq_stepFold (cap : Option Nat) : ∀ (anchors : List Anchor)
    (seen links : List String),
    scanA cap anchors seen links
      = stepFold cap (anchors.filterMap acceptAnchorA) seen links := by
  intro anchors
  induction anchors with
  | nil => intro seen links; rfl
  | cons a rest ih =>
    intro seen links
    cases ha : a.href with
    | none => simp [scanA, acceptAnchorA, ha, ih]
    | some h =>
      by_cases h1 : h = ""
      · simp [scanA, acceptAnchorA, ha, h1, ih]
      · by_cases h2 : strStartsWith h "javascript:" = true
        · simp [scanA, acceptAnchorA, ha, h1, h2, ih]
        · by_cases h3 : (!strContains h "danawa" && !strStartsWith h "/") = true
          · simp [scanA, acceptAnchorA, ha, h1, h2, h3, ih]
          · by_cases h5 : (badWords.any fun w =>
                strContains (strToLower (strStrip a.text)) w) = true
            · by_cases h4 : h ∈ seen
              · simp [scanA, acceptAnchorA, ha, h1, h2, h3, h4, h5, ih]
              · simp [scanA, acceptAnchorA, ha, h1, h2, h3, h4, h5, ih]
            · by_cases h4 : h ∈ seen
              · simp [scanA, acceptAnchorA, stepFold, ha, h1, h2, h3, h4, h5, ih]
              · simp [scanA, acceptAnchorA, stepFold, ha, h1, h2, h3, h4, h5, ih]

theorem stepFold_inert (cap : Option Nat) (hc : ∀ m, capReached cap m = false) :
    ∀ (l seen links : List String),
    stepFold cap l seen links = (seenAfter seen l, links ++ firstSeenAux seen l, false) := by
  intro l
  induction l with
  | nil => intro seen links; simp [stepFold, seenAfter, firstSeenAux]
  | cons h t ih =>
    intro seen links
    by_cases hs : h ∈ seen
    · simp [stepFold, seenAfter, firstSeenAux, hs, ih]
    · simp [stepFold, seenAfter, firstSeenAux, hs, hc, ih]

theorem capReached_some_true {n len : Nat} (hn : n ≠ 0) (h : n ≤ len) :
    capReached (some n) len = true := by
  simp [capReached, hn, h]

theorem capReached_some_false {n len : Nat} (h : ¬ n ≤ len) :
    capReached (some n) len = false := by
  simp [capReached, h]

theorem stepFold_cap_stop (n : Nat) (hn : 0 < n) : ∀ (l seen links : List String),
    links.length < n → n ≤ (links ++ firstSeenAux seen l).length →
    (stepFold (some n) l seen links).2 = ((links ++ firstSeenAux seen l).take n, true) := by
  intro l
  induction l with
  | nil =>
    intro seen links h1 h2
    simp [firstSeenAux] at h2
    omega
  | cons h t ih =>
    intro seen links h1 h2
    by_cases hs : h ∈ seen
    · rw [firstSeenAux, if_pos hs] at h2 ⊢
      rw [stepFold, if_pos hs]
      exact ih seen links h1 h2
    · rw [firstSeenAux, if_neg hs] at h2 ⊢
      rw [stepFold, if_neg hs]
      have hlen : (links ++ [h]).length = links.length + 1 := by simp
      by_cases hcap : n ≤ links.length + 1
      · have hn2 : n = links.length + 1 := by omega
        have hcr : capReached (some n) (links ++ [h]).length = true := by
          rw [hlen]
          exact capReached_some_true (by omega) (by omega)
        rw [if_pos hcr]
        rw [hn2, take_len_succ_append]
      · have hcr : ¬ (capReached (some n) (links ++ [h]).length = true) := by
          rw [hlen, capReached_some_false (by omega)]
          exact Bool.false_ne_true
        rw [if_neg hcr]
        have h2b : n ≤ ((links ++ [h]) ++ firstSeenAux (h :: seen) t).length := by
          simp at h2 ⊢
          omega
        have h1b : (links ++ [h]).length < n := by
          simp
          omega
        have hrec := ih (h :: seen) (links ++ [h]) h1b h2b
        rw [hrec]
        simp

theorem stepFold_cap_go (n : Nat) (_hn : 0 < n) : ∀ (l seen links : List String),
    links.length < n → (links ++ firstSeenAux seen l).length < n →
    stepFold (some n) l seen links
      = (seenAfter seen l, links ++ firstSeenAux seen l, false) := by
  intro l
  induction l with
  | nil => intro seen links _ _; simp [stepFold, seenAfter, firstSeenAux]
  | cons h t ih =>
    intro seen links h1 h2
    by_cases hs : h ∈ seen
    · rw [firstSeenAux, if_pos hs] at h2 ⊢
      rw [seenAfter, if_pos hs]
      rw [stepFold, if_pos hs]
      exact ih seen links h1 h2
    · rw [firstSeenAux, if_neg hs] at h2 ⊢
      rw [seenAfter, if_neg hs]
      rw [stepFold, if_neg hs]
      have hlen : (links ++ [h]).length = links.length + 1 := by simp
      have harith : links.length + 1 + (firstSeenAux (h :: seen) t).length < n := by
        simp at h2
        omega
      have hcr : ¬ (capReached (some n) (links ++ [h]).length = true) := by
        rw [hlen, capReached_some_false (by omega)]
        exact Bool.false_ne_true
      rw [if_neg hcr]
      have h1b : (links ++ [h]).length < n := by
        simp at h2 ⊢
        omega
      have h2b : ((links ++ [h]) ++ firstSeenAux (h :: seen) t).length < n := by
        simp at h2 ⊢
        omega
      have hrec := ih (h :: seen) (links ++ [h]) h1b h2b
      rw [hrec]
      simp

theorem firstSeenAux_append : ∀ (a b seen : List String),
    firstSeenAux seen (a ++ b)
      = firstSeenAux seen a ++ firstSeenAux (seenAfter seen a) b := by
  intro a
  induction a with
  | nil => intro b seen; simp [firstSeenAux, seenAfter]
  | cons h t ih =>
    intro b seen
    by_cases hs : h ∈ seen
    · simp [firstSeenAux, seenAfter, hs, ih]
    · simp [firstSeenAux, seenAfter, hs, ih]

theorem seenAfter_append : ∀ (a b seen : List String),
    seenAfter seen (a ++ b) = seenAfter (seenAfter seen a) b := by
  intro a
  induction a with
  | nil => intro b seen; simp [seenAfter]
  | cons h t ih =>
    intro b seen
    by_cases hs : h ∈ seen
    · simp [seenAfter, hs, ih]
    · simp [seenAfter, hs, ih]

theorem collectLoopA_eq (page : String → List Anchor) (cap : Option Nat) :
    ∀ (sels seen links : List String),
    (∀ n, cap = some n → 0 < n → links.length < n) →
    collectLoopA page cap sels seen links =
      applyCap cap (links ++ firstSeenAux seen
        ((sels.map (fun sel => (page sel).filterMap acceptAnchorA)).flatten)) := by
  intro sels
  induction sels with
  | nil =>
    intro seen links hinv
    simp only [collectLoopA, List.map_nil, List.flatten_nil, firstSeenAux, List.append_nil]
    cases cap with
    | none => rfl
    | some n =>
      by_cases hn : n = 0
      · simp [applyCap, hn]
      · have hl := hinv n rfl (Nat.pos_of_ne_zero hn)
        simp [applyCap, hn, take_all_of_le links n (Nat.le_of_lt hl)]
  | cons sel rest ih =>
    intro seen links hinv
    rw [collectLoopA]
    by_cases hempty : (page sel).length = 0
    · rw [if_pos hempty]
      have hnil : (page sel).filterMap acceptAnchorA = [] := by
        rw [List.length_eq_zero.mp hempty]
        rfl
      rw [ih seen links hinv]
      simp [hnil]
    · rw [if_neg hempty, scanA_eq_stepFold]
      have hflat : ((sel :: rest).map
            (fun sel => (page sel).filterMap acceptAnchorA)).flatten
          = (page sel).filterMap acceptAnchorA
            ++ (rest.map (fun sel => (page sel).filterMap acceptAnchorA)).flatten := by
        simp
      rw [hflat]
      cases cap with
      | none =>
        rw [stepFold_inert none (fun m => rfl)]
        dsimp only
        rw [if_neg Bool.false_ne_true]
        rw [ih (seenAfter seen ((page sel).filterMap acceptAnchorA))
          (links ++ firstSeenAux seen ((page sel).filterMap acceptAnchorA))
          (fun n hn => nomatch hn)]
        rw [firstSeenAux_append]
        simp [applyCap, List.append_assoc]
      | some n =>
        by_cases hn : n = 0
        · subst hn
          rw [stepFold_inert (some 0) (fun m => by simp [capReached])]
          dsimp only
          rw [if_neg Bool.false_ne_true]
          rw [ih (seenAfter seen ((page sel).filterMap acceptAnchorA))
            (links ++ firstSeenAux seen ((page sel).filterMap acceptAnchorA))
            (fun n hn hp => by cases hn; exact absurd hp (by simp))]
          rw [firstSeenAux_append]
          simp [applyCap, List.append_assoc]
        · have hpos : 0 < n := Nat.pos_of_ne_zero hn
          have hlinks : links.length < n := hinv n rfl hpos
          by_cases hstop : n ≤ (links ++ firstSeenAux seen
              ((page sel).filterMap acceptAnchorA)).length
          · have hsf := stepFold_cap_stop n hpos
              ((page sel).filterMap acceptAnchorA) seen links hlinks hstop
            have hcond : (stepFold (some n)
                ((page sel).filterMap acceptAnchorA) seen links).2.2 = true := by
              rw [hsf]
            have hres : (stepFold (some n)
                ((page sel).filterMap acceptAnchorA) seen links).2.1
                = (links ++ firstSeenAux seen
                    ((page sel).filterMap acceptAnchorA)).take n := by
              rw [hsf]
            rw [if_pos hcond, hres]
            rw [firstSeenAux_append]
            rw [show links ++ (firstSeenAux seen ((page sel).filterMap acceptAnchorA)
                ++ firstSeenAux (seenAfter seen ((page sel).filterMap acceptAnchorA))
                  ((rest.map (fun sel => (page sel).filterMap acceptAnchorA)).flatten))
              = (links ++ firstSeenAux seen ((page sel).filterMap acceptAnchorA))
                ++ firstSeenAux (seenAfter seen ((page sel).filterMap acceptAnchorA))
                  ((rest.map (fun sel => (page sel).filterMap acceptAnchorA)).flatten)
              from by simp [List.append_assoc]]
            rw [show applyCap (some n) = fun l => l.take n from by
              funext l; simp [applyCap, hn]]
            exact (take_append_of_le _ _ n hstop).symm
          · have hlt : (links ++ firstSeenAux seen
                ((page sel).filterMap acceptAnchorA)).length < n :=
              Nat.lt_of_not_le hstop
            have hsf := stepFold_cap_go n hpos
              ((page sel).filterMap acceptAnchorA) seen links hlinks hlt
            rw [hsf]
            dsimp only
            rw [if_neg Bool.false_ne_true]
            rw [ih (seenAfter seen ((page sel).filterMap acceptAnchorA))
              (links ++ firstSeenAux seen ((page sel).filterMap acceptAnchorA))
              (fun m hm hp => by cases hm; exact hlt)]
            rw [firstSeenAux_append]
            simp [List.append_assoc]

theorem collectA_spec (page : String → List Anchor) (cap : Option Nat) :
    collect_product_links_from_category page cap
      = applyCap cap (firstSeenAux [] (candidatesA page)) := by
  unfold collect_product_links_from_category candidatesA
  rw [collectLoopA_eq page cap selectorsA [] [] (fun n _ hp => by simpa using hp)]
  simp

theorem firstSeenAux_nil_iff : ∀ (l : List String), firstSeenAux [] l = [] ↔ l = [] := by
  intro l
  cases l with
  | nil => simp [firstSeenAux]
  | cons h t => simp [firstSeenAux]

theorem collectLoopB_eq (page : String → List (Option String)) :
    ∀ (sels : List String),
    collectLoopB page sels [] [] =
      firstSeenAux [] (firstNonempty
        (sels.map (fun sel => (page sel).filterMap acceptAnchorB))) := by
  intro sels
  induction sels with
  | nil => rfl
  | cons sel rest ih =>
    rw [collectLoopB]
    by_cases hempty : (page sel).length = 0
    · rw [if_pos hempty]
      have hnil : (page sel).filterMap acceptAnchorB = [] := by
        rw [List.length_eq_zero.mp hempty]
        rfl
      rw [ih]
      simp [hnil, firstNonempty]
    · rw [if_neg hempty]
      rw [stepFold_inert none (fun m => rfl)]
      dsimp only
      rw [List.nil_append]
      by_cases hne : firstSeenAux [] ((page sel).filterMap acceptAnchorB) = []
      · have hbe : (page sel).filterMap acceptAnchorB = [] :=
          (firstSeenAux_nil_iff _).mp hne
        rw [if_neg (by simp [hne])]
        rw [hbe]
        dsimp only [seenAfter, firstSeenAux]
        rw [ih]
        simp [hbe, firstNonempty]
      · rw [if_pos hne]
        have hbne : (page sel).filterMap acceptAnchorB ≠ [] := by
          intro hb
          exact hne (by rw [hb]; rfl)
        simp [firstNonempty, hbne]

theorem collectB_spec (page : String → List (Option String)) (cap : Option Nat) :
    collect_links_on_page page cap
      = applyCap cap (firstSeenAux [] (firstNonempty (blocksB page))) := by
  unfold collect_links_on_page blocksB
  rw [collectLoopB_eq]

/-! ## Nodup and order facts about the dedup sequence -/

theorem firstSeenAux_not_mem_seen : ∀ (l seen : List String) (x : String),
    x ∈ firstSeenAux seen l → x ∉ seen := by
  intro l
  induction l with
  | nil => intro seen x h; simp [firstSeenAux] at h
  | cons h t ih =>
    intro seen x hx
    unfold firstSeenAux at hx
    split at hx
    · exact ih seen x hx
    · rcases List.mem_cons.mp hx with h1 | h1
      · subst h1
        next hs => exact hs
      · intro hmem
        exact ih (h :: seen) x h1 (List.mem_cons_of_mem _ hmem)

theorem firstSeenAux_nodup : ∀ (l seen : List String), (firstSeenAux seen l).Nodup := by
  intro l
  induction l with
  | nil => intro seen; simp [firstSeenAux]
  | cons h t ih =>
    intro seen
    unfold firstSeenAux
    split
    · exact ih seen
    · rw [List.nodup_cons]
      refine ⟨?_, ih (h :: seen)⟩
      intro hmem
      exact firstSeenAux_not_mem_seen t (h :: seen) h hmem (List.mem_cons_self h seen)

theorem take_sublist_self {α : Type} : ∀ (n : Nat) (l : List α), List.Sublist (l.take n) l := by
  intro n l
  induction l generalizing n with
  | nil => simp
  | cons x xs ih =>
    cases n with
    | zero => simp
    | succ m =>
      rw [List.take_succ_cons]
      exact List.Sublist.cons₂ x (ih m)

theorem applyCap_sublist (cap : Option Nat) (l : List String) :
    List.Sublist (applyCap cap l) l := by
  cases cap with
  | none => exact List.Sublist.refl l
  | some n =>
    by_cases hn : n = 0
    · simp [applyCap, hn]
    · simp only [applyCap, if_neg hn]
      exact take_sublist_self n l

theorem applyCap_length {n : Nat} (hn : 0 < n) (l : List String) :
    (applyCap (some n) l).length ≤ n := by
  simp only [applyCap, if_neg (Nat.pos_iff_ne_zero.mp hn)]
  rw [List.length_take]
  omega

/-! ## Claim theorems: C1 and C7 (Link Collector) -/

/-- C1 (corrected): the amended claim. The full-crawl collector
`collect_product_links_from_category` scans ALL selector strategies in
their fixed order and each matching strategy contributes links — the
result is the capped first-seen deduplication of the union of all
strategies' accepted anchors. Only the discovery-pass collector
`collect_links_on_page` implements selector priority: its result is the
capped first-seen deduplication of the first selector block that yields
any accepted link, and later strategies are not consulted. -/
theorem C1_selector_strategy :
    (∀ (page : String → List Anchor) (cap : Option Nat),
      collect_product_links_from_category page cap
        = applyCap cap (firstSeenAux [] (candidatesA page)))
  ∧ (∀ (page : String → List (Option String)) (cap : Option Nat),
      collect_links_on_page page cap
        = applyCap cap (firstSeenAux [] (firstNonempty (blocksB page)))) :=
  ⟨collectA_spec, collectB_spec⟩

/-- C1 counterexample: on a page where the first selector strategy
matches one anchor and the second strategy matches a different one, the
full-crawl collector returns both links — the later strategy
contributes a link the first strategy did not find, refuting "the first
strategy that matches any element determines the result". -/
theorem C1_counterexample :
    collect_product_links_from_category cexPageA none
      = ["https://prod.danawa.com/p1", "https://prod.danawa.com/p2"]
  ∧ cexPageA "li.prod_item div.prod_info a.prod_link" ≠ []
  ∧ (∀ a ∈ cexPageA "li.prod_item div.prod_info a.prod_link",
      a.href ≠ some "https://prod.danawa.com/p2") := by decide

/-- C7 (confirmed): both collectors return at most the requested cap,
never return a duplicate URL, and return links as a sublist of the
first-seen deduplication of their scan order (first-encounter order). -/
theorem C7_collector_cap_dedup_order :
    ∀ (page : String → List Anchor) (pageB : String → List (Option String))
      (cap : Option Nat),
      (collect_product_links_from_category page cap).Nodup
    ∧ List.Sublist (collect_product_links_from_category page cap)
        (firstSeenAux [] (candidatesA page))
    ∧ (∀ n, cap = some n → 0 < n →
        (collect_product_links_from_category page cap).length ≤ n)
    ∧ (collect_links_on_page pageB cap).Nodup
    ∧ List.Sublist (collect_links_on_page pageB cap)
        (firstSeenAux [] (firstNonempty (blocksB pageB)))
    ∧ (∀ n, cap = some n → 0 < n → (collect_links_on_page pageB cap).length ≤ n) := by
  intro page pageB cap
  rw [collectA_spec, collectB_spec]
  refine ⟨?_, applyCap_sublist cap _, ?_, ?_, applyCap_sublist cap _, ?_⟩
  · exact List.Nodup.sublist (applyCap_sublist cap _) (firstSeenAux_nodup _ _)
  · intro n hc hp
    subst hc
    exact applyCap_length hp _
  · exact List.Nodup.sublist (applyCap_sublist cap _) (firstSeenAux_nodup _ _)
  · intro n hc hp
    subst hc
    exact applyCap_length hp _

/-- C7 witness: a concrete page with two accepted anchors, capped at 1. -/
theorem C7_witness :
    (collect_product_links_from_category capPageA (some 1)).length ≤ 1 :=
  (C7_collector_cap_dedup_order capPageA (fun _ => []) (some 1)).2.2.1 1 rfl
    (by decide)

/-- C8 (confirmed): the persisted discovery object has shape
(count, items) with items the lexicographically sorted, deduplicated
vocabulary and count equal to its number of entries. -/
theorem C8_discovery_output : ∀ results : List (List String),
    (buildMapping results).1 = (buildMapping results).2.length
  ∧ (buildMapping results).2.Sorted (· ≤ ·)
  ∧ (buildMapping results).2.Nodup
  ∧ ∀ s : String, s ∈ (buildMapping results).2 ↔ s ∈ results.flatten := by
  intro results
  unfold buildMapping
  refine ⟨rfl, sortStrings_sorted _, ?_, ?_⟩
  · exact ((sortStrings_perm _).nodup_iff).mpr (List.nodup_dedup _)
  · intro s
    rw [(sortStrings_perm _).mem_iff, List.mem_dedup]

end Crawler
